import Mathlib

/-!
Verification of the Grover-search notebook (`src/Concept/2Q.ipynb`).

The notebook builds three artefacts (all matrices are real):
* `phase_oracle n indices` : identity matrix of size `2^n` with the diagonal
  entries at the listed indices overwritten by `-1`;
* `diffuser n` : Hadamard gates on every qubit, the oracle marking index `0`,
  Hadamard gates again;
* `Grover n indices r` : Hadamard layer, `r` rounds of (oracle, diffuser),
  terminal measurement; `r == 0` triggers the analytic round count
  `int(floor(pi/4 * sqrt(2^n / len(indices))))`.

All amplitudes live in the ring `Qrt2 = ℚ[√2]` (the Hadamard gate has
entries `±1/√2 = ±(1/2)√2`), which keeps every state-vector computation
exact and decidable.
-/

/-- The ring ℚ[√2]: `re + rt·√2` with `re rt : ℚ`.  Every amplitude produced
by the notebook's circuits lies in this ring. -/
structure Qrt2 where
  re : ℚ
  rt : ℚ
deriving DecidableEq, Repr

namespace Qrt2

theorem ext2 : ∀ {x y : Qrt2}, x.re = y.re → x.rt = y.rt → x = y
  | ⟨_, _⟩, ⟨_, _⟩, rfl, rfl => rfl

instance : Zero Qrt2 := ⟨⟨0, 0⟩⟩
instance : One Qrt2 := ⟨⟨1, 0⟩⟩
instance : Add Qrt2 := ⟨fun x y => ⟨x.re + y.re, x.rt + y.rt⟩⟩
instance : Neg Qrt2 := ⟨fun x => ⟨-x.re, -x.rt⟩⟩
instance : Sub Qrt2 := ⟨fun x y => ⟨x.re - y.re, x.rt - y.rt⟩⟩
instance : Mul Qrt2 :=
  ⟨fun x y => ⟨x.re * y.re + 2 * x.rt * y.rt, x.re * y.rt + x.rt * y.re⟩⟩
instance : NatCast Qrt2 := ⟨fun n => ⟨(n : ℚ), 0⟩⟩

@[simp] theorem zero_re : (0 : Qrt2).re = 0 := rfl
@[simp] theorem zero_rt : (0 : Qrt2).rt = 0 := rfl
@[simp] theorem one_re : (1 : Qrt2).re = 1 := rfl
@[simp] theorem one_rt : (1 : Qrt2).rt = 0 := rfl
@[simp] theorem add_re (x y : Qrt2) : (x + y).re = x.re + y.re := rfl
@[simp] theorem add_rt (x y : Qrt2) : (x + y).rt = x.rt + y.rt := rfl
@[simp] theorem neg_re (x : Qrt2) : (-x).re = -x.re := rfl
@[simp] theorem neg_rt (x : Qrt2) : (-x).rt = -x.rt := rfl
@[simp] theorem sub_re (x y : Qrt2) : (x - y).re = x.re - y.re := rfl
@[simp] theorem sub_rt (x y : Qrt2) : (x - y).rt = x.rt - y.rt := rfl
@[simp] theorem mul_re (x y : Qrt2) :
    (x * y).re = x.re * y.re + 2 * x.rt * y.rt := rfl
@[simp] theorem mul_rt (x y : Qrt2) :
    (x * y).rt = x.re * y.rt + x.rt * y.re := rfl
@[simp] theorem natCast_re (n : ℕ) : (n : Qrt2).re = (n : ℚ) := rfl
@[simp] theorem natCast_rt (n : ℕ) : (n : Qrt2).rt = 0 := rfl

instance : CommRing Qrt2 where
  nsmul n x := ⟨n * x.re, n * x.rt⟩
  nsmul_zero x := ext2 (by simp) (by simp)
  nsmul_succ n x := ext2 (by simp; ring) (by simp; ring)
  zsmul n x := ⟨n * x.re, n * x.rt⟩
  zsmul_zero' x := ext2 (by simp) (by simp)
  zsmul_succ' n x := ext2 (by simp; ring) (by simp; ring)
  zsmul_neg' n x := ext2 (by simp; ring) (by simp; ring)
  add_assoc x y z := ext2 (by simp [add_assoc]) (by simp [add_assoc])
  zero_add x := ext2 (by simp) (by simp)
  add_zero x := ext2 (by simp) (by simp)
  add_comm x y := ext2 (by simp [add_comm]) (by simp [add_comm])
  neg_add_cancel x := ext2 (by simp) (by simp)
  sub_eq_add_neg x y := ext2 (by simp [sub_eq_add_neg]) (by simp [sub_eq_add_neg])
  left_distrib x y z := ext2 (by simp; ring) (by simp; ring)
  right_distrib x y z := ext2 (by simp; ring) (by simp; ring)
  zero_mul x := ext2 (by simp) (by simp)
  mul_zero x := ext2 (by simp) (by simp)
  mul_assoc x y z := ext2 (by simp; ring) (by simp; ring)
  one_mul x := ext2 (by simp) (by simp)
  mul_one x := ext2 (by simp) (by simp)
  mul_comm x y := ext2 (by simp; ring) (by simp; ring)
  natCast_zero := ext2 (by simp) (by simp)
  natCast_succ n := ext2 (by push_cast; simp) (by simp)

end Qrt2

open Matrix Kronecker

/-- The constant 1/√2 = (1/2)·√2 in ℚ[√2]: the Hadamard-gate coefficient. -/
def invSqrt2 : Qrt2 := ⟨0, 1/2⟩

/-- The constant 1/2 in ℚ[√2]. -/
def half : Qrt2 := ⟨1/2, 0⟩

/-- The single-qubit Hadamard gate `H = (1/√2)·[[1,1],[1,-1]]` (`qc.h` on one
qubit). -/
def H1 : Matrix (Fin 2) (Fin 2) Qrt2 :=
  Matrix.of ![![invSqrt2, invSqrt2], ![invSqrt2, -invSqrt2]]

/-- Index identification `Fin 2 × Fin (2^n) ≃ Fin (2^(n+1))` used to build
tensor powers over the flat index space of the state vector. -/
def splitIdx (n : ℕ) : Fin 2 × Fin (2 ^ n) ≃ Fin (2 ^ (n + 1)) :=
  finProdFinEquiv.trans (finCongr (by rw [pow_succ, Nat.mul_comm]))

/-- The joint action of `qc.h(range(n))` (a Hadamard gate on each of the `n`
qubits): the `n`-fold tensor power of `H1` on the `2^n`-dimensional state
space. -/
def Hmat : (n : ℕ) → Matrix (Fin (2 ^ n)) (Fin (2 ^ n)) Qrt2
  | 0 => 1
  | n + 1 => Matrix.reindex (splitIdx n) (splitIdx n) (H1 ⊗ₖ Hmat n)

/-- One pass of the marking loop in `phase_oracle`:
`oracle_matrix[index_to_mark, index_to_mark] = -1`. -/
def markEntry (N : ℕ) (m : Matrix (Fin N) (Fin N) Qrt2) (idx : Fin N) :
    Matrix (Fin N) (Fin N) Qrt2 :=
  Matrix.of fun i j => if i = idx ∧ j = idx then -1 else m i j

/-- The matrix built inside `phase_oracle n indices_to_mark`:
`np.identity(2**n)` followed by the loop setting each marked diagonal entry
to `-1`. -/
def oracle_matrix (n : ℕ) (indices_to_mark : List (Fin (2 ^ n))) :
    Matrix (Fin (2 ^ n)) (Fin (2 ^ n)) Qrt2 :=
  indices_to_mark.foldl (markEntry (2 ^ n)) 1

/-- A circuit operation: either a unitary applied to the whole register
(`qc.unitary` / the joint Hadamard layer) or a measurement step
(`qc.measure`) recording qubit-to-classical-slot pairs. -/
inductive Op (n : ℕ) where
  | apply (U : Matrix (Fin (2 ^ n)) (Fin (2 ^ n)) Qrt2)
  | measure (pairs : List (ℕ × ℕ))

/-- A circuit: the ordered list of operations appended to the
`QuantumCircuit`. -/
abbrev Circuit (n : ℕ) := List (Op n)

/-- The Hadamard layer `qc.h(range(n))` as one circuit operation. -/
def hLayer (n : ℕ) : Op n := Op.apply (Hmat n)

/-- The subcircuit contributed by `phase_oracle n indices_to_mark`: the
single `qc.unitary(Operator(oracle_matrix), range(n))` operation. -/
def phase_oracle (n : ℕ) (indices_to_mark : List (Fin (2 ^ n))) : Circuit n :=
  [Op.apply (oracle_matrix n indices_to_mark)]

/-- The index `0` of the `2^n`-dimensional state space. -/
def zeroIdx (n : ℕ) : Fin (2 ^ n) := ⟨0, by positivity⟩

/-- The circuit built by `diffuser n`: Hadamard layer, `phase_oracle(n, [0])`,
Hadamard layer (the appended subcircuit is flattened into its operations,
exactly as transpilation displays it). -/
def diffuser (n : ℕ) : Circuit n :=
  [hLayer n] ++ phase_oracle n [zeroIdx n] ++ [hLayer n]

/-- The terminal `qc.measure(range(n), range(n))`: qubit `i` is read out into
classical slot `i`, in qubit-index order. -/
def measureAll (n : ℕ) : Op n :=
  Op.measure ((List.range n).map fun i => (i, i))

/-- The circuit `Grover` builds once its round count `r` is fixed: Hadamard
layer, then the `for _ in range(r)` loop appending
`phase_oracle(n, indices)` and `diffuser(n)`, then the measurement. -/
def Grover_build (n : ℕ) (indices : List (Fin (2 ^ n))) (r : ℕ) : Circuit n :=
  ((List.range r).foldl (fun qc _ => qc ++ phase_oracle n indices ++ diffuser n)
    [hLayer n]) ++ [measureAll n]

/-- The circuit built by `Grover_Step_I` (oracle rounds only, diffuser and
measurement commented out). -/
def Grover_Step_I_build (n : ℕ) (indices : List (Fin (2 ^ n))) (r : ℕ) : Circuit n :=
  (List.range r).foldl (fun qc _ => qc ++ phase_oracle n indices) [hLayer n]

/-- The analytic round count
`int(np.floor(np.pi/4*np.sqrt(2**n/k)))` (idealising IEEE floats by real
arithmetic). -/
noncomputable def optimal_r (n k : ℕ) : ℕ :=
  Nat.floor (Real.pi / 4 * Real.sqrt ((2 ^ n : ℝ) / (k : ℝ)))

/-- The auto-computed round count; `k = 0` is Python's
`ZeroDivisionError` from `2**n/len(indices_of_marked_elements)`, modelled
as `none`. -/
noncomputable def auto_r (n k : ℕ) : Option ℕ :=
  if k = 0 then none else some (optimal_r n k)

/-- The driver `Grover(n, indices_of_marked_elements, r=0)`.  The test
`if r == 0` routes literal zero to the auto-computation; any other `r`
(including negatives, whose `range(r)` loop is empty) is used as given. -/
noncomputable def Grover (n : ℕ) (indices : List (Fin (2 ^ n))) (r : ℤ) :
    Option (Circuit n) :=
  if r = 0 then (auto_r n indices.length).map fun r' => Grover_build n indices r'
  else some (Grover_build n indices r.toNat)

/-- Action of one operation on an exact state vector: a unitary multiplies
the vector; the terminal measurement of a deterministic state leaves the
collapsed state vector unchanged. -/
def stepState (n : ℕ) (v : Fin (2 ^ n) → Qrt2) : Op n → (Fin (2 ^ n) → Qrt2)
  | Op.apply U => U.mulVec v
  | Op.measure _ => v

/-- The statevector backend: run the circuit on an initial state. -/
def runStatevector (n : ℕ) (c : Circuit n) (v : Fin (2 ^ n) → Qrt2) :
    Fin (2 ^ n) → Qrt2 :=
  c.foldl (stepState n) v

/-- The simulator's initial state `|0…0⟩`. -/
def initState (n : ℕ) : Fin (2 ^ n) → Qrt2 := fun i => if (i : ℕ) = 0 then 1 else 0

/-- The total unitary of (the unitary part of) a circuit, multiplied in
application order. -/
def circMatrix (n : ℕ) (c : Circuit n) : Matrix (Fin (2 ^ n)) (Fin (2 ^ n)) Qrt2 :=
  c.foldl (fun M op => match op with | Op.apply U => U * M | Op.measure _ => M) 1

/-- Born-rule outcome weights of a (real-amplitude) state vector. -/
def probs (n : ℕ) (v : Fin (2 ^ n) → Qrt2) : Fin (2 ^ n) → Qrt2 :=
  fun i => v i * v i

/-- Modelled from the spec: the sampling backend (`qasm_simulator`, an
external collaborator not part of this repository) is a noiseless sampler,
so over `shots` repeated trials each outcome occurs `shots · p` times
whenever the distribution `p` is deterministic (`p i ∈ {0, 1}`). -/
def shotCounts (n : ℕ) (shots : ℕ) (v : Fin (2 ^ n) → Qrt2) : Fin (2 ^ n) → Qrt2 :=
  fun i => (shots : Qrt2) * probs n v i

/-- The mean of the `2^n` amplitudes. -/
def meanAmp (n : ℕ) (v : Fin (2 ^ n) → Qrt2) : Qrt2 :=
  half ^ n * Finset.univ.sum v

/-- The readout bitstring of basis index `i` on `n` qubits, qubit 0 first. -/
def bitstringOf (n i : ℕ) : List Bool :=
  (List.range n).map fun q => Nat.testBit i q

/-- The constant matrix on the `2^n`-dimensional space, every entry `c`. -/
def constMat (n : ℕ) (c : Qrt2) : Matrix (Fin (2 ^ n)) (Fin (2 ^ n)) Qrt2 :=
  Matrix.of fun _ _ => c

/-- The matrix with a single `1` in the `(0,0)` corner of the
`2^n`-dimensional space. -/
def eZero (n : ℕ) : Matrix (Fin (2 ^ n)) (Fin (2 ^ n)) Qrt2 :=
  Matrix.of fun i j => if (i : ℕ) = 0 ∧ (j : ℕ) = 0 then 1 else 0

/-! ### Lemmas about the oracle matrix -/

theorem foldl_markEntry (N : ℕ) (l : List (Fin N)) (m : Matrix (Fin N) (Fin N) Qrt2)
    (i j : Fin N) :
    (l.foldl (markEntry N) m) i j = if i = j ∧ j ∈ l then -1 else m i j := by
  induction l generalizing m with
  | nil => simp
  | cons a t ih =>
    rw [List.foldl_cons, ih]
    simp only [markEntry, Matrix.of_apply, List.mem_cons]
    split_ifs <;> simp_all

theorem oracle_matrix_apply (n : ℕ) (l : List (Fin (2 ^ n))) (i j : Fin (2 ^ n)) :
    oracle_matrix n l i j = if i = j then (if j ∈ l then -1 else 1) else 0 := by
  rw [oracle_matrix, foldl_markEntry]
  by_cases hij : i = j
  · subst hij
    by_cases h : i ∈ l <;> simp [h, Matrix.one_apply]
  · simp [hij, Matrix.one_apply_ne hij]

theorem oracle_matrix_diagonal (n : ℕ) (l : List (Fin (2 ^ n))) :
    oracle_matrix n l = Matrix.diagonal fun i => if i ∈ l then -1 else 1 := by
  ext i j
  rw [oracle_matrix_apply]
  by_cases hij : i = j
  · subst hij; simp
  · simp [hij, Matrix.diagonal_apply_ne _ hij]

theorem oracle_mul_self (n : ℕ) (l : List (Fin (2 ^ n))) :
    oracle_matrix n l * oracle_matrix n l = 1 := by
  rw [oracle_matrix_diagonal, Matrix.diagonal_mul_diagonal]
  have h : (fun i => (if i ∈ l then (-1 : Qrt2) else 1) * (if i ∈ l then -1 else 1))
      = fun _ => (1 : Qrt2) := by
    funext i
    by_cases hi : i ∈ l <;> simp [hi]
  rw [h, Matrix.diagonal_one]

theorem oracle_transpose (n : ℕ) (l : List (Fin (2 ^ n))) :
    (oracle_matrix n l)ᵀ = oracle_matrix n l := by
  rw [oracle_matrix_diagonal, Matrix.diagonal_transpose]

/-! ### Lemmas about the Hadamard tensor power -/

theorem H1_mul_H1 : H1 * H1 = 1 := by
  ext i j
  fin_cases i <;> fin_cases j <;> with_unfolding_all decide

theorem H1_row_zero (a : Fin 2) : H1 0 a = invSqrt2 := by
  fin_cases a <;> with_unfolding_all decide

theorem H1_col_zero (a : Fin 2) : H1 a 0 = invSqrt2 := by
  fin_cases a <;> with_unfolding_all decide

theorem Hmat_mul_Hmat (n : ℕ) : Hmat n * Hmat n = 1 := by
  induction n with
  | zero => rw [Hmat]; exact one_mul 1
  | succ n ih =>
    rw [Hmat, Matrix.reindex_apply, Matrix.submatrix_mul_equiv,
      ← Matrix.mul_kronecker_mul, H1_mul_H1, ih, Matrix.one_kronecker_one,
      Matrix.submatrix_one_equiv]

theorem splitIdx_zero (n : ℕ) : splitIdx n (0, zeroIdx n) = zeroIdx (n + 1) := by
  apply Fin.ext
  simp [splitIdx, zeroIdx]

theorem splitIdx_symm_zero (n : ℕ) :
    (splitIdx n).symm (zeroIdx (n + 1)) = (0, zeroIdx n) := by
  rw [Equiv.symm_apply_eq, splitIdx_zero]

theorem Hmat_col_zero (n : ℕ) (i : Fin (2 ^ n)) :
    Hmat n i (zeroIdx n) = invSqrt2 ^ n := by
  induction n with
  | zero =>
    have h1 : i = zeroIdx 0 := by
      apply Fin.ext
      have h2 := i.isLt
      norm_num at h2
      simp [zeroIdx, h2]
    subst h1
    with_unfolding_all decide
  | succ n ih =>
    rw [Hmat, Matrix.reindex_apply, Matrix.submatrix_apply, splitIdx_symm_zero,
      Matrix.kroneckerMap_apply]
    rw [H1_col_zero, ih, pow_succ, mul_comm]

theorem Hmat_row_zero (n : ℕ) (j : Fin (2 ^ n)) :
    Hmat n (zeroIdx n) j = invSqrt2 ^ n := by
  induction n with
  | zero =>
    have h1 : j = zeroIdx 0 := by
      apply Fin.ext
      have h2 := j.isLt
      norm_num at h2
      simp [zeroIdx, h2]
    subst h1
    with_unfolding_all decide
  | succ n ih =>
    rw [Hmat, Matrix.reindex_apply, Matrix.submatrix_apply, splitIdx_symm_zero,
      Matrix.kroneckerMap_apply]
    rw [H1_row_zero, ih, pow_succ, mul_comm]

/-! ### The diffuser matrix in closed form -/

theorem eZero_mul (n : ℕ) (M : Matrix (Fin (2 ^ n)) (Fin (2 ^ n)) Qrt2) :
    eZero n * M
      = Matrix.of fun (i j : Fin (2 ^ n)) =>
          if (i : ℕ) = 0 then M (zeroIdx n) j else 0 := by
  ext i j
  rw [Matrix.mul_apply, Matrix.of_apply]
  by_cases hi : (i : ℕ) = 0
  · rw [if_pos hi, Finset.sum_eq_single (zeroIdx n)]
    · simp [eZero, hi, zeroIdx]
    · intro b _ hb
      have hbv : ¬((b : ℕ) = 0) := fun h => hb (Fin.ext h)
      simp [eZero, hbv]
    · intro h
      exact absurd (Finset.mem_univ _) h
  · rw [if_neg hi]
    apply Finset.sum_eq_zero
    intro b _
    simp [eZero, hi]

theorem mul_ifZero (n : ℕ) (M : Matrix (Fin (2 ^ n)) (Fin (2 ^ n)) Qrt2)
    (f : Fin (2 ^ n) → Qrt2) :
    (M * Matrix.of fun (k j : Fin (2 ^ n)) => if (k : ℕ) = 0 then f j else 0)
      = Matrix.of fun (i j : Fin (2 ^ n)) => M i (zeroIdx n) * f j := by
  ext i j
  rw [Matrix.mul_apply, Matrix.of_apply]
  rw [Finset.sum_eq_single (zeroIdx n)]
  · simp [zeroIdx]
  · intro b _ hb
    have hbv : ¬((b : ℕ) = 0) := fun h => hb (Fin.ext h)
    simp [hbv]
  · intro h
    exact absurd (Finset.mem_univ _) h

theorem Hmat_eZero_Hmat (n : ℕ) :
    Hmat n * (eZero n * Hmat n) = constMat n (half ^ n) := by
  rw [eZero_mul, mul_ifZero]
  ext i j
  rw [Matrix.of_apply, Hmat_col_zero, Hmat_row_zero, constMat, Matrix.of_apply,
    ← mul_pow]
  congr 1
  with_unfolding_all decide

theorem oracle_zero_eq (n : ℕ) :
    oracle_matrix n [zeroIdx n] = 1 - (eZero n + eZero n) := by
  ext i j
  rw [oracle_matrix_apply, Matrix.sub_apply, Matrix.add_apply, Matrix.one_apply]
  simp only [eZero, Matrix.of_apply]
  by_cases hij : i = j
  · subst hij
    by_cases hz : (i : ℕ) = 0
    · have hmem : i ∈ [zeroIdx n] := List.mem_singleton.mpr (Fin.ext hz)
      rw [if_pos rfl, if_pos hmem, if_pos rfl, if_pos ⟨hz, hz⟩]
      with_unfolding_all decide
    · have hmem : i ∉ [zeroIdx n] := by
        intro h
        exact hz (congrArg Fin.val (List.mem_singleton.mp h))
      rw [if_pos rfl, if_neg hmem, if_pos rfl, if_neg fun h => hz h.1]
      with_unfolding_all decide
  · have h2 : ¬((i : ℕ) = 0 ∧ (j : ℕ) = 0) := by
      rintro ⟨ha, hb⟩
      exact hij (Fin.ext (ha.trans hb.symm))
    rw [if_neg hij, if_neg hij, if_neg h2]
    with_unfolding_all decide

theorem circMatrix_diffuser (n : ℕ) :
    circMatrix n (diffuser n)
      = Hmat n * (oracle_matrix n [zeroIdx n] * Hmat n) := by
  simp [circMatrix, diffuser, hLayer, phase_oracle, mul_one]

theorem diffuser_matrix (n : ℕ) :
    circMatrix n (diffuser n)
      = 1 - (constMat n (half ^ n) + constMat n (half ^ n)) := by
  rw [circMatrix_diffuser, oracle_zero_eq, Matrix.sub_mul, Matrix.add_mul,
    Matrix.one_mul, Matrix.mul_sub, Matrix.mul_add, Hmat_mul_Hmat,
    Hmat_eZero_Hmat]

theorem constMat_mulVec (n : ℕ) (c : Qrt2) (v : Fin (2 ^ n) → Qrt2)
    (i : Fin (2 ^ n)) :
    (constMat n c).mulVec v i = c * Finset.univ.sum v := by
  simp [constMat, Matrix.mulVec, Matrix.dotProduct, Finset.mul_sum]

theorem diffuser_mulVec (n : ℕ) (v : Fin (2 ^ n) → Qrt2) :
    (circMatrix n (diffuser n)).mulVec v = fun i => v i - 2 * meanAmp n v := by
  rw [diffuser_matrix]
  funext i
  rw [Matrix.sub_mulVec, Matrix.add_mulVec, Matrix.one_mulVec, Pi.sub_apply,
    Pi.add_apply, constMat_mulVec, meanAmp, two_mul]

/-! ### Structure of the driver circuit and the analytic round count -/

theorem foldl_append_blocks {α : Type} (c : List α) (r : ℕ) (init : List α) :
    (List.range r).foldl (fun acc _ => acc ++ c) init
      = init ++ (List.replicate r c).flatten := by
  induction r generalizing init with
  | zero => simp
  | succ r ih =>
    rw [List.range_succ, List.foldl_append, ih, List.replicate_succ',
      List.flatten_append]
    simp [List.append_assoc]

theorem Grover_build_eq (n : ℕ) (indices : List (Fin (2 ^ n))) (r : ℕ) :
    Grover_build n indices r
      = [hLayer n] ++ (List.replicate r (phase_oracle n indices ++ diffuser n)).flatten
          ++ [measureAll n] := by
  rw [Grover_build]
  have h : (fun (qc : Circuit n) (_ : ℕ) => qc ++ phase_oracle n indices ++ diffuser n)
      = fun qc _ => qc ++ (phase_oracle n indices ++ diffuser n) := by
    funext qc x
    rw [List.append_assoc]
  rw [h, foldl_append_blocks]

theorem optimal_r_two_one : optimal_r 2 1 = 1 := by
  rw [optimal_r]
  have h1 : ((2 : ℝ) ^ (2 : ℕ) / ((1 : ℕ) : ℝ)) = 4 := by norm_num
  rw [h1]
  have h2 : Real.sqrt 4 = 2 := by
    rw [show (4 : ℝ) = 2 ^ 2 by norm_num]
    exact Real.sqrt_sq (by norm_num)
  rw [h2]
  have hpi3 := Real.pi_gt_three
  have hpi4 := Real.pi_lt_four
  rw [Nat.floor_eq_iff (by linarith)]
  constructor
  · push_cast
    linarith
  · push_cast
    linarith

theorem optimal_r_full (m : ℕ) : optimal_r m (2 ^ m) = 0 := by
  rw [optimal_r]
  have h1 : ((2 : ℝ) ^ m / ((2 ^ m : ℕ) : ℝ)) = 1 := by
    push_cast
    exact div_self (by positivity)
  rw [h1, Real.sqrt_one, mul_one, Nat.floor_eq_zero]
  have hpi4 := Real.pi_lt_four
  linarith

/-! ### Claim theorems -/

set_option maxRecDepth 8000 in
/-- C1: for the Grover circuit built with n = 2, marked-index set {1} and
r = 1 round (the notebook's `Grover(n, indices_of_marked_elements, 1)`),
the exact statevector backend yields the final amplitude vector
`[0, -1, 0, 0]` (probability 1 of measuring index 1), and a noiseless
1000-shot sample of the full circuit yields the bitstring of index 1
(qubit 0 first: `[true, false]`, printed `01`) in all 1000 shots. -/
theorem grover_end_to_end_n2 :
    Grover 2 [1] 1 = some (Grover_build 2 [1] 1) ∧
    runStatevector 2 (Grover_build 2 [1] 1) (initState 2) = ![0, -1, 0, 0] ∧
    probs 2 (runStatevector 2 (Grover_build 2 [1] 1) (initState 2))
      = (fun i => if i = 1 then 1 else 0) ∧
    shotCounts 2 1000 (runStatevector 2 (Grover_build 2 [1] 1) (initState 2))
      = (fun i => if i = 1 then 1000 else 0) ∧
    bitstringOf 2 1 = [true, false] := by
  refine ⟨?_, ?_, ?_, ?_, rfl⟩
  · rw [Grover, if_neg (by decide : (1 : ℤ) ≠ 0)]
    rfl
  · funext i
    revert i
    with_unfolding_all decide
  · funext i
    revert i
    with_unfolding_all decide
  · funext i
    revert i
    with_unfolding_all decide

/-- C2: the phase oracle is the 2^n-dimensional identity with the diagonal
entries at marked indices negated: off-diagonal entries are 0, marked
diagonal entries are -1, unmarked ones +1, the matrix is unitary, and
exactly k diagonal entries equal -1 where k is the size of the marked set. -/
theorem phase_oracle_matrix_spec (n : ℕ) (_hn : 1 ≤ n) (l : List (Fin (2 ^ n)))
    (k : ℕ) (hs : l.toFinset.card = k) (_hk1 : 1 ≤ k) (_hk2 : k ≤ 2 ^ n) :
    (∀ i j, i ≠ j → oracle_matrix n l i j = 0) ∧
    (∀ i, i ∈ l → oracle_matrix n l i i = -1) ∧
    (∀ i, i ∉ l → oracle_matrix n l i i = 1) ∧
    (oracle_matrix n l)ᵀ * oracle_matrix n l = 1 ∧
    (Finset.univ.filter fun i => oracle_matrix n l i i = -1).card = k := by
  refine ⟨?_, ?_, ?_, ?_, ?_⟩
  · intro i j hij
    rw [oracle_matrix_apply, if_neg hij]
  · intro i hi
    rw [oracle_matrix_apply, if_pos rfl, if_pos hi]
  · intro i hi
    rw [oracle_matrix_apply, if_pos rfl, if_neg hi]
  · rw [oracle_transpose, oracle_mul_self]
  · rw [← hs]
    congr 1
    ext i
    simp only [Finset.mem_filter, Finset.mem_univ, true_and, List.mem_toFinset]
    rw [oracle_matrix_apply, if_pos rfl]
    constructor
    · intro h
      by_contra hmem
      rw [if_neg hmem] at h
      exact absurd h (by with_unfolding_all decide)
    · intro h
      rw [if_pos h]

/-- C2 witness: instance at n = 1, marked list [0], k = 1. -/
theorem phase_oracle_matrix_spec_witness :
    1 ≤ 1 ∧ ([zeroIdx 1] : List (Fin (2 ^ 1))).toFinset.card = 1 ∧
    1 ≤ 1 ∧ 1 ≤ 2 ^ 1 ∧
    ((∀ i j, i ≠ j → oracle_matrix 1 [zeroIdx 1] i j = 0) ∧
     (∀ i, i ∈ [zeroIdx 1] → oracle_matrix 1 [zeroIdx 1] i i = -1) ∧
     (∀ i, i ∉ [zeroIdx 1] → oracle_matrix 1 [zeroIdx 1] i i = 1) ∧
     (oracle_matrix 1 [zeroIdx 1])ᵀ * oracle_matrix 1 [zeroIdx 1] = 1 ∧
     (Finset.univ.filter fun i => oracle_matrix 1 [zeroIdx 1] i i = -1).card = 1) :=
  ⟨le_rfl, by with_unfolding_all decide, le_rfl, by decide,
    phase_oracle_matrix_spec 1 le_rfl [zeroIdx 1] 1
      (by with_unfolding_all decide) le_rfl (by decide)⟩

/-- C3 counterexample: at n = 1 with amplitude vector (1, 0), the diffuser
transform built by the code yields entry -1 at index 1, while the claimed
reflection 2·mean(a) - a_i would yield +1 there. -/
theorem diffuser_claim_cex :
    (circMatrix 1 (diffuser 1)).mulVec ![1, 0] 1
      ≠ 2 * meanAmp 1 ![1, 0] - ![1, 0] 1 := by
  with_unfolding_all decide

/-- C3 (amended): the diffuser builder returns exactly Hadamard layer,
oracle marking only index 0, Hadamard layer, and this transform maps every
amplitude vector a to the vector whose i-th entry is a_i - 2·mean(a) — the
negation (global phase -1) of the claimed 2·mean(a) - a_i. -/
theorem diffuser_structure_and_action (n : ℕ) (_hn : 1 ≤ n)
    (v : Fin (2 ^ n) → Qrt2) :
    diffuser n = [hLayer n] ++ phase_oracle n [zeroIdx n] ++ [hLayer n] ∧
    (circMatrix n (diffuser n)).mulVec v = fun i => v i - 2 * meanAmp n v :=
  ⟨rfl, diffuser_mulVec n v⟩

/-- C3 witness: instance at n = 1 with amplitude vector (1, 0). -/
theorem diffuser_structure_and_action_witness :
    1 ≤ 1 ∧
    (circMatrix 1 (diffuser 1)).mulVec ![1, 0]
      = (fun i => ![1, 0] i - 2 * meanAmp 1 ![1, 0]) :=
  ⟨le_rfl, (diffuser_structure_and_action 1 le_rfl ![1, 0]).2⟩

/-- C4: when the round count is not supplied (the default sentinel 0), the
driver computes r = floor(pi/4·sqrt(2^n/k)) with k the size of the marked
set; that value is 1 for (n, k) = (2, 1) and 0 whenever k = 2^n. -/
theorem auto_round_count (n : ℕ) (indices : List (Fin (2 ^ n)))
    (hne : indices ≠ []) (hnd : indices.Nodup) :
    Grover n indices 0
      = some (Grover_build n indices
          (Nat.floor (Real.pi / 4
            * Real.sqrt ((2 ^ n : ℝ) / (indices.toFinset.card : ℝ))))) ∧
    optimal_r 2 1 = 1 ∧ (∀ m : ℕ, optimal_r m (2 ^ m) = 0) := by
  refine ⟨?_, optimal_r_two_one, optimal_r_full⟩
  have hlen : indices.length ≠ 0 := fun h => hne (List.length_eq_zero.mp h)
  rw [Grover, if_pos rfl, auto_r, if_neg hlen,
    List.toFinset_card_of_nodup hnd]
  rfl

/-- C4 witness: instance at n = 2, marked list [1]. -/
theorem auto_round_count_witness :
    ([1] : List (Fin (2 ^ 2))) ≠ [] ∧ ([1] : List (Fin (2 ^ 2))).Nodup ∧
    (Grover 2 [1] 0
      = some (Grover_build 2 [1]
          (Nat.floor (Real.pi / 4
            * Real.sqrt ((2 ^ 2 : ℝ)
                / ((([1] : List (Fin (2 ^ 2))).toFinset.card : ℕ) : ℝ))))) ∧
     optimal_r 2 1 = 1 ∧ (∀ m : ℕ, optimal_r m (2 ^ m) = 0)) :=
  ⟨by decide, by decide, auto_round_count 2 [1] (by decide) (by decide)⟩

/-- C5 counterexample: passing literal r = 0 to the driver does not yield
the zero-round superposition-plus-measurement circuit: for n = 2 and
marked set {1} the auto-computation is triggered and one full round is
appended instead. -/
theorem grover_zero_sentinel_cex :
    Grover 2 [1] 0 ≠ some (Grover_build 2 [1] 0) := by
  intro hEq
  have h : Grover 2 [1] 0 = some (Grover_build 2 [1] 1) := by
    rw [Grover, if_pos rfl, auto_r,
      if_neg (by decide : ¬(List.length ([1] : List (Fin (2 ^ 2))) = 0)),
      show List.length ([1] : List (Fin (2 ^ 2))) = 1 from rfl,
      optimal_r_two_one]
    rfl
  rw [h] at hEq
  have h2 := Option.some.inj hEq
  have h3 := congrArg List.length h2
  have h4 : (Grover_build 2 [1] 1).length = 6 := rfl
  have h5 : (Grover_build 2 [1] 0).length = 2 := rfl
  rw [h4, h5] at h3
  exact absurd h3 (by decide)

/-- C5 (amended): literal r = 0 is conflated with the auto-compute
sentinel: the driver then builds the circuit with the analytically
computed round count, so an explicit request for zero amplification
rounds cannot be expressed by passing 0. -/
theorem grover_zero_triggers_auto (n : ℕ) (indices : List (Fin (2 ^ n)))
    (hne : indices ≠ []) :
    Grover n indices 0
      = some (Grover_build n indices (optimal_r n indices.length)) := by
  have hlen : indices.length ≠ 0 := fun h => hne (List.length_eq_zero.mp h)
  rw [Grover, if_pos rfl, auto_r, if_neg hlen]
  rfl

/-- C5 witness: instance at n = 2, marked list [1]. -/
theorem grover_zero_triggers_auto_witness :
    ([1] : List (Fin (2 ^ 2))) ≠ [] ∧
    Grover 2 [1] 0
      = some (Grover_build 2 [1]
          (optimal_r 2 ([1] : List (Fin (2 ^ 2))).length)) :=
  ⟨by decide, grover_zero_triggers_auto 2 [1] (by decide)⟩

/-- C6: the driver's circuit is, in order: the Hadamard layer on all n
qubits, then exactly r rounds each consisting of the oracle built with the
caller's marked set followed by the diffuser, then a terminal measurement
of all n qubits into n classical slots in qubit-index order. -/
theorem grover_circuit_structure (n : ℕ) (_hn : 1 ≤ n)
    (indices : List (Fin (2 ^ n))) (_hne : indices ≠ []) (r : ℕ) :
    Grover_build n indices r
      = [hLayer n]
        ++ (List.replicate r (phase_oracle n indices ++ diffuser n)).flatten
        ++ [measureAll n] ∧
    measureAll n = Op.measure ((List.range n).map fun i => (i, i)) :=
  ⟨Grover_build_eq n indices r, rfl⟩

/-- C6 witness: instance at n = 1, marked list [0], r = 1. -/
theorem grover_circuit_structure_witness :
    1 ≤ 1 ∧ ([zeroIdx 1] : List (Fin (2 ^ 1))) ≠ [] ∧
    (Grover_build 1 [zeroIdx 1] 1
      = [hLayer 1]
        ++ (List.replicate 1 (phase_oracle 1 [zeroIdx 1] ++ diffuser 1)).flatten
        ++ [measureAll 1] ∧
     measureAll 1 = Op.measure ((List.range 1).map fun i => (i, i))) :=
  ⟨le_rfl, by decide, grover_circuit_structure 1 le_rfl [zeroIdx 1] (by decide) 1⟩

/-- C7: the diffuser transform composed with itself is the identity
transform on the 2^n-dimensional state space. -/
theorem diffuser_involution (n : ℕ) (_hn : 1 ≤ n) :
    circMatrix n (diffuser n) * circMatrix n (diffuser n) = 1 := by
  rw [circMatrix_diffuser]
  simp only [← mul_assoc]
  rw [mul_assoc (Hmat n * oracle_matrix n [zeroIdx n]) (Hmat n) (Hmat n),
    Hmat_mul_Hmat, mul_one,
    mul_assoc (Hmat n) (oracle_matrix n [zeroIdx n]) (oracle_matrix n [zeroIdx n]),
    oracle_mul_self, mul_one, Hmat_mul_Hmat]

/-- C7 witness: instance at n = 1. -/
theorem diffuser_involution_witness :
    1 ≤ 1 ∧ circMatrix 1 (diffuser 1) * circMatrix 1 (diffuser 1) = 1 :=
  ⟨le_rfl, diffuser_involution 1 le_rfl⟩

/-- C8: for n = 2 and marked set {1}, the Hadamard layer alone sends the
zero state to [1/2, 1/2, 1/2, 1/2], and Hadamard followed by one oracle
application (Grover_Step_I with r = 1, no diffuser) yields
[1/2, -1/2, 1/2, 1/2]. -/
theorem step_one_amplitudes :
    runStatevector 2 [hLayer 2] (initState 2) = ![half, half, half, half] ∧
    runStatevector 2 (Grover_Step_I_build 2 [1] 1) (initState 2)
      = ![half, -half, half, half] := by
  constructor
  · funext i
    revert i
    with_unfolding_all decide
  · funext i
    revert i
    with_unfolding_all decide

/-- C9: with an empty marked set and auto-computed rounds the driver fails
inside the round-count formula (Python's division by zero, modelled as
none); the driver itself performs no input validation and happily builds a
circuit for the empty set whenever the formula is not invoked. -/
theorem grover_empty_marked (n : ℕ) :
    Grover n ([] : List (Fin (2 ^ n))) 0 = none ∧
    auto_r n 0 = none ∧
    (∀ r : ℤ, r ≠ 0 → Grover n ([] : List (Fin (2 ^ n))) r
      = some (Grover_build n [] r.toNat)) := by
  refine ⟨?_, ?_, ?_⟩
  · simp [Grover, auto_r]
  · rw [auto_r, if_pos rfl]
  · intro r hr
    rw [Grover, if_neg hr]

/-- C9 witness: instance at n = 2 with explicit r = 5. -/
theorem grover_empty_marked_witness :
    Grover 2 ([] : List (Fin (2 ^ 2))) 0 = none ∧
    Grover 2 ([] : List (Fin (2 ^ 2))) 5
      = some (Grover_build 2 [] (5 : ℤ).toNat) :=
  ⟨(grover_empty_marked 2).1, (grover_empty_marked 2).2.2 5 (by decide)⟩

/-- C10: a negative explicit round count raises no error: the r == 0 test
does not catch it, the round loop over range(r) runs zero times, and the
built circuit is the Hadamard layer followed directly by the measurement. -/
theorem grover_negative_rounds (n : ℕ) (indices : List (Fin (2 ^ n)))
    (r : ℤ) (hr : r < 0) :
    Grover n indices r = some (Grover_build n indices 0) ∧
    Grover_build n indices 0 = [hLayer n] ++ [measureAll n] := by
  constructor
  · have h0 : r ≠ 0 := hr.ne
    have ht : r.toNat = 0 := Int.toNat_of_nonpos hr.le
    rw [Grover, if_neg h0, ht]
  · rfl

/-- C10 witness: instance at n = 2, marked list [1], r = -1. -/
theorem grover_negative_rounds_witness :
    (-1 : ℤ) < 0 ∧
    (Grover 2 [1] (-1) = some (Grover_build 2 [1] 0) ∧
     Grover_build 2 [1] 0 = [hLayer 2] ++ [measureAll 2]) :=
  ⟨by decide, grover_negative_rounds 2 [1] (-1) (by decide)⟩
